import Mathlib

/-!
Verification of the prab-cli tool-calling core: safety/confirmation policy
(src/lib/safety.ts), tool executor (src/lib/tools/executor.ts), chat
orchestration loop (src/lib/chat-handler.ts), and the bash / git-push /
edit-file tools (src/lib/tools/file-tools.ts, src/lib/tools/git-tools.ts).

The TypeScript is shallowly embedded: argument objects become ordered
key/value lists over a small JSON value type, JavaScript regular-expression
tests over command strings become an executable matcher over a small
pattern language, the interactive confirmation prompt and the model
provider become explicit inputs, and the stateful pieces (session
confirmation memory, message history, iteration counter) are threaded as
explicit state.
-/

namespace PrabCli

/-! ## Character and string helpers -/

/-- Whitespace test matching the JavaScript regex class backslash-s on the
characters that occur in shell commands. -/
def isWsChar (c : Char) : Bool :=
  c = ' ' || c = '\t' || c = '\n' || c = '\r'

/-- Boolean test that the first list is an initial segment of the second. -/
def hasPfx : List Char → List Char → Bool
  | [], _ => true
  | _ :: _, [] => false
  | p :: ps, c :: cs => p == c && hasPfx ps cs

/-- Boolean test that the first list occurs contiguously inside the second,
mirroring the JavaScript String.includes used by the error classifier. -/
def containsL (pat : List Char) : List Char → Bool
  | [] => pat.isEmpty
  | c :: cs => hasPfx pat (c :: cs) || containsL pat cs

/-- String wrapper for `containsL`: does `pat` occur inside `s`. -/
def strContainsSub (s pat : String) : Bool :=
  containsL pat.data s.data

/-- Lower-case a string, mirroring JavaScript toLowerCase on ASCII. -/
def lowerStr (s : String) : String :=
  ⟨s.data.map Char.toLower⟩

/-! ## A small pattern language for the hard-coded regexes

The safety checker and the bash tool test commands against fixed
JavaScript regexes built only from literal characters, `[a literal
matched case-insensitively]`, one-or-more whitespace, zero-or-more
whitespace, and a dot-star. We embed exactly those constructs. -/

inductive RPat where
  | lit (c : Char)
  | litCI (c : Char)
  | ws1
  | ws0
  | anyStar
deriving DecidableEq, Repr

/-- Fuel-bounded matcher: does the pattern list match a prefix of the
character list. Fuel only needs to dominate twice the input length plus
the pattern length; `matchTop` supplies enough. -/
def matchF : Nat → List RPat → List Char → Bool
  | 0, _, _ => false
  | _ + 1, [], _ => true
  | fuel + 1, .lit c :: ps, l =>
      match l with
      | [] => false
      | d :: ds => c == d && matchF fuel ps ds
  | fuel + 1, .litCI c :: ps, l =>
      match l with
      | [] => false
      | d :: ds => d.toLower == c.toLower && matchF fuel ps ds
  | fuel + 1, .ws1 :: ps, l =>
      match l with
      | [] => false
      | d :: ds => isWsChar d && matchF fuel (.ws0 :: ps) ds
  | fuel + 1, .ws0 :: ps, l =>
      matchF fuel ps l ||
        (match l with
         | [] => false
         | d :: ds => isWsChar d && matchF fuel (.ws0 :: ps) ds)
  | fuel + 1, .anyStar :: ps, l =>
      matchF fuel ps l ||
        (match l with
         | [] => false
         | d :: ds => d ≠ '\n' && matchF fuel (.anyStar :: ps) ds)

/-- Match the pattern at the start of the input, with sufficient fuel. -/
def matchTop (ps : List RPat) (l : List Char) : Bool :=
  matchF (2 * l.length + ps.length + 1) ps l

/-- Unanchored regex search: try to match at every position, as the
JavaScript RegExp.test does. -/
def rSearch (ps : List RPat) : List Char → Bool
  | [] => matchTop ps []
  | c :: cs => matchTop ps (c :: cs) || rSearch ps cs

/-- Turn a plain string into a literal pattern list. -/
def litsOf (s : String) : List RPat :=
  s.data.map RPat.lit

/-- Case-insensitive literal pattern list. -/
def litsCIOf (s : String) : List RPat :=
  s.data.map RPat.litCI

/-! ## JSON-ish argument values

Tool arguments arrive as a JavaScript object; we model them as an ordered
association list, which is exactly the information JSON.stringify
consumes (property insertion order is significant there). -/

inductive Jval where
  | jstr (s : String)
  | jbool (b : Bool)
  | jnum (n : Int)
  | jnull
deriving DecidableEq, Repr

/-- Ordered key/value list standing for a JavaScript argument object. -/
abbrev Args : Type := List (String × Jval)

/-- JSON string escaping for the characters exercised here (quote and
backslash; other characters are emitted verbatim). -/
def jescChar (c : Char) : String :=
  if c = '"' then "\\\"" else if c = '\\' then "\\\\" else String.singleton c

/-- A JSON-quoted string literal. -/
def jquote (s : String) : String :=
  "\"" ++ String.join (s.data.map jescChar) ++ "\""

/-- Serialize one JSON value the way JSON.stringify prints it. -/
def jvalStr : Jval → String
  | .jstr s => jquote s
  | .jbool true => "true"
  | .jbool false => "false"
  | .jnum n => toString n
  | .jnull => "null"

/-- JSON.stringify of an argument object: properties in insertion order.
This is the raw serialization the executor feeds into its session
override key. -/
def jsonStringifyArgs (args : Args) : String :=
  "\x7b" ++ String.intercalate "," (args.map (fun kv => jquote kv.1 ++ ":" ++ jvalStr kv.2)) ++ "\x7d"

/-- The session confirmation-memory key from executor.ts line 46:
tool name, a colon, then JSON.stringify of the raw argument object. -/
def overrideKey (name : String) (args : Args) : String :=
  name ++ ":" ++ jsonStringifyArgs args

/-- Property lookup on an argument object (first binding wins, as in a
JavaScript object where later duplicates would have overwritten — our
argument lists are taken to be duplicate-free). -/
def lookupArg (args : Args) (k : String) : Option Jval :=
  List.lookup k args

/-- JavaScript truthiness of a possibly-absent property value. -/
def truthy : Option Jval → Bool
  | none => false
  | some .jnull => false
  | some (.jbool b) => b
  | some (.jnum n) => n ≠ 0
  | some (.jstr s) => s ≠ ""

/-- Coerce a possibly-absent property value to a string the way
JavaScript does when the value reaches RegExp.test. -/
def argStr (args : Args) (k : String) : String :=
  match lookupArg args k with
  | some (.jstr s) => s
  | some (.jbool true) => "true"
  | some (.jbool false) => "false"
  | some (.jnum n) => toString n
  | some .jnull => "null"
  | none => "undefined"

/-! ## Safety policy (src/lib/safety.ts) -/

/-- The two preference flags consulted by the safety checker. -/
structure Prefs where
  autoConfirm : Bool
  safeMode : Bool
deriving DecidableEq, Repr

/-- Outcome of one tool execution (types.ts ToolResult; the optional
metadata side channel is not modelled). -/
structure ToolResult where
  success : Bool
  output : String
  error : Option String
deriving DecidableEq, Repr

/-- A registered tool: its descriptor flags plus its execute behaviour. -/
structure ToolT where
  name : String
  requiresConfirmation : Bool
  destructive : Bool
  run : Args → ToolResult

/-- The dangerous-pattern list from SafetyChecker.isExtremelyDangerous
(safety.ts lines 46-53): rm -rf, rm of a globbed directory, redirection
into /dev, dd if=, mkfs, and format (case-insensitive). -/
def safetyDangerousPatterns : List (List RPat) :=
  [ litsOf "rm" ++ [.ws1] ++ litsOf "-rf"
  , litsOf "rm" ++ [.ws1, .anyStar] ++ litsOf "/*"
  , [.lit '>', .ws0] ++ litsOf "/dev"
  , litsOf "dd" ++ [.ws1] ++ litsOf "if="
  , litsOf "mkfs"
  , litsCIOf "format" ]

/-- SafetyChecker.isExtremelyDangerous: force git push, git branch
delete, or a bash command matching one of the catastrophic patterns. -/
def isExtremelyDangerous (tool : ToolT) (args : Args) : Bool :=
  if tool.name = "git_push" && truthy (lookupArg args "force") then true
  else if tool.name = "git_branch" && lookupArg args "action" == some (.jstr "delete") then true
  else if tool.name = "bash" then
    safetyDangerousPatterns.any (fun p => rSearch p (argStr args "command").data)
  else false

/-- SafetyChecker.shouldConfirm (safety.ts lines 13-29), translated
branch for branch. -/
def shouldConfirm (prefs : Prefs) (tool : ToolT) (args : Args) : Bool :=
  if prefs.autoConfirm && !prefs.safeMode then
    isExtremelyDangerous tool args
  else if prefs.safeMode && tool.destructive then
    true
  else
    tool.requiresConfirmation

/-- The three-branch decision table exactly as the specification words
it: branch 1, auto-confirm on and safe-mode off, confirm exactly for the
extremely dangerous override set; branch 2, safe-mode on and tool
destructive, confirm; branch 3, fall back to the per-tool flag. Stated
separately from `shouldConfirm` so that agreement is a theorem. -/
def shouldConfirmSpec (prefs : Prefs) (tool : ToolT) (args : Args) : Bool :=
  if prefs.autoConfirm = true ∧ prefs.safeMode = false then
    isExtremelyDangerous tool args
  else if prefs.safeMode = true ∧ tool.destructive = true then
    true
  else
    tool.requiresConfirmation

/-! ## Tool executor (src/lib/tools/executor.ts)

The interactive confirmation prompt and the tool registry are inputs:
the prompt becomes a function giving the (proceed, remember) answers the
user would give, and the registry becomes a name-indexed partial map.
The session override memory is the set of remembered keys, threaded as
explicit state. -/

/-- A tool call issued by the model (types.ts ToolCall). -/
structure ToolCall where
  id : String
  name : String
  args : Args
deriving DecidableEq, Repr

/-- The executor environment: registry lookup, the current preferences
consulted by the safety checker, and the user answers at the
confirmation prompt. -/
structure ExecEnv where
  registry : String → Option ToolT
  prefs : Prefs
  prompt : ToolT → Args → Bool × Bool

/-- Session confirmation memory: the override keys stored with value
true in the sessionOverrides map. -/
abbrev ExecSt : Type := List String

/-- ToolExecutor.executeSingle (executor.ts lines 24-99): resolve the
tool, consult the safety checker, consult session memory, maybe prompt,
maybe remember, then run the tool. Logging, spinners, and the tracker
are output-only and not modelled; the catch-all around the tool body is
absorbed into the tool `run` function returning its failure result. -/
def executeSingleSt (env : ExecEnv) (st : ExecSt) (call : ToolCall) : ToolResult × ExecSt :=
  match env.registry call.name with
  | none =>
      ({ success := false, output := ""
       , error := some ("Tool \x27" ++ call.name ++ "\x27 not found") }, st)
  | some tool =>
      let needsConfirm := shouldConfirm env.prefs tool call.args
      if needsConfirm then
        let key := overrideKey tool.name call.args
        if !(List.contains st key) then
          let answer := env.prompt tool call.args
          if !answer.1 then
            ({ success := false, output := ""
             , error := some "Operation cancelled by user" }, st)
          else
            let st' := if answer.2 then key :: st else st
            (tool.run call.args, st')
        else
          (tool.run call.args, st)
      else
        (tool.run call.args, st)

/-- ToolExecutor.executeMultiple (executor.ts lines 104-116): run the
calls one after another, pushing each result, never stopping early. -/
def executeMultipleSt (env : ExecEnv) : ExecSt → List ToolCall → List ToolResult × ExecSt
  | st, [] => ([], st)
  | st, c :: cs =>
      let first := executeSingleSt env st c
      let rest := executeMultipleSt env first.2 cs
      (first.1 :: rest.1, rest.2)

/-! ## Chat orchestration loop (src/lib/chat-handler.ts) -/

/-- One turn of the conversation transcript. A final assistant message
is an `assistant` with an empty call list. -/
inductive Msg where
  | system (content : String)
  | user (content : String)
  | assistant (content : String) (toolCalls : List ToolCall)
  | toolMsg (content : String) (toolCallId : String) (name : String)
deriving DecidableEq, Repr

/-- What one fully-drained provider stream amounts to: either the
accumulated text plus the captured tool-call list, or a raised error. -/
inductive ModelResponse where
  | ok (text : String) (calls : List ToolCall)
  | errResp (msg : String)
deriving DecidableEq, Repr

/-- The four-bucket error taxonomy of ProcessResult.errorType. -/
inductive ErrType where
  | rate_limit
  | model_unavailable
  | auth_error
  | unknown
deriving DecidableEq, Repr

/-- The ProcessResult returned by processUserInput. -/
inductive PResult where
  | ok
  | failed (error : String) (isModelErr : Bool) (errorType : ErrType)
deriving DecidableEq, Repr

/-- ChatHandler.isModelError (chat-handler.ts lines 271-293): does the
lower-cased error text contain one of the model-error markers. -/
def isModelError (msg : String) : Bool :=
  let l := lowerStr msg
  [ "rate limit", "rate_limit", "quota exceeded", "model not found"
  , "model is not available", "model_not_available", "overloaded"
  , "capacity", "too many requests", "429", "503", "502"
  , "service unavailable", "timeout", "context length", "maximum context"
  , "token limit" ].any (fun p => strContainsSub l p)

/-- ChatHandler.classifyError (chat-handler.ts lines 298-330):
substring-classify the lower-cased error text into the four buckets. -/
def classifyError (msg : String) : ErrType :=
  let l := lowerStr msg
  if strContainsSub l "rate limit" || strContainsSub l "rate_limit" ||
     strContainsSub l "too many requests" || strContainsSub l "429" then
    .rate_limit
  else if strContainsSub l "model not found" || strContainsSub l "not available" ||
     strContainsSub l "overloaded" || strContainsSub l "503" || strContainsSub l "502" then
    .model_unavailable
  else if strContainsSub l "auth" || strContainsSub l "api key" ||
     strContainsSub l "unauthorized" || strContainsSub l "401" then
    .auth_error
  else
    .unknown

/-- The content of one tool-role message (chat-handler.ts line 216):
the output on success, otherwise the string Error: followed by the error
text (a missing error prints as undefined, as JavaScript interpolation
does). -/
def toolResultContent (r : ToolResult) : String :=
  if r.success then r.output else "Error: " ++ r.error.getD "undefined"

/-- The tool-role messages appended after a batch (chat-handler.ts lines
210-221): one per call, in call order, correlated by the call id and
name. -/
def toolMessages (calls : List ToolCall) (results : List ToolResult) : List Msg :=
  (calls.zip results).map (fun p => Msg.toolMsg (toolResultContent p.2) p.1.id p.1.name)

/-- The fixed iteration cap maxIterations from chat-handler.ts line 115. -/
def maxIterations : Nat := 10

/-- The while loop of processUserInput (chat-handler.ts lines 117-232).
Fuel counts the iterations still allowed (cap minus the iterations
already done, the second argument); the provider is a function from the
zero-based iteration index to that iteration response. Returns the
message list, the executor state, the final iteration count, and the
raised provider error if one occurred. -/
def runLoop (env : ExecEnv) (responses : Nat → ModelResponse) :
    Nat → Nat → ExecSt → List Msg → List Msg × ExecSt × Nat × Option String
  | 0, k, st, msgs => (msgs, st, k, none)
  | fuel + 1, k, st, msgs =>
      match responses k with
      | .errResp e => (msgs, st, k + 1, some e)
      | .ok text calls =>
          if calls.isEmpty then
            (msgs ++ [Msg.assistant text []], st, k + 1, none)
          else
            let exec := executeMultipleSt env st calls
            runLoop env responses fuel (k + 1) exec.2
              (msgs ++ Msg.assistant text calls :: toolMessages calls exec.1)

/-- The result of one whole user turn. -/
structure TurnOutcome where
  messages : List Msg
  execState : ExecSt
  result : PResult
  iterations : Nat
  warned : Bool
deriving DecidableEq, Repr

/-- ChatHandler.processUserInput (chat-handler.ts lines 90-266): append
the user message, run the bounded loop, emit the cap warning on the
normal path when the count reached the cap, and on a provider error
classify it and pop the last message only when it matches the
model-error markers. -/
def processUserInput (env : ExecEnv) (responses : Nat → ModelResponse)
    (input : String) (st : ExecSt) (msgs0 : List Msg) : TurnOutcome :=
  let msgs1 := msgs0 ++ [Msg.user input]
  match runLoop env responses maxIterations 0 st msgs1 with
  | (msgs2, st2, iters, none) =>
      { messages := msgs2, execState := st2, result := .ok
      , iterations := iters, warned := decide (iters ≥ maxIterations) }
  | (msgs2, st2, iters, some e) =>
      let ime := isModelError e
      { messages := if ime then msgs2.dropLast else msgs2
      , execState := st2
      , result := .failed e ime (classifyError e)
      , iterations := iters, warned := false }

/-! ## The bash tool (src/lib/tools/file-tools.ts, BashTool) -/

/-- The BashTool deny-pattern list (file-tools.ts lines 342-350):
recursive delete of root, mkfs, dd if=, redirection into /dev/sd,
recursive chmod 777, recursive chown, and the fork bomb. The JavaScript
fork-bomb regex parses as an alternation whose two branches are the
literal colon-brace-space-colon and ampersand-space-brace-semicolon
fragments of the classic fork bomb, so it contributes two literal
pattern lists here. -/
def bashDangerousPatterns : List (List RPat) :=
  [ litsOf "rm" ++ [.ws1] ++ litsOf "-rf" ++ [.ws1] ++ litsOf "/"
  , litsOf "mkfs"
  , litsOf "dd" ++ [.ws1] ++ litsOf "if="
  , [.lit '>', .ws0] ++ litsOf "/dev/sd"
  , litsOf "chmod" ++ [.ws1] ++ litsOf "-R" ++ [.ws1] ++ litsOf "777"
  , litsOf "chown" ++ [.ws1] ++ litsOf "-R"
  , [.lit ':', .lit '\x7b', .lit ' ', .lit ':']
  , [.lit ':', .lit '&', .lit ' ', .lit '\x7d', .lit ';', .lit ':'] ]

/-- BashTool.isDangerous: some deny pattern matches the command. -/
def isDangerousBash (command : String) : Bool :=
  bashDangerousPatterns.any (fun p => rSearch p command.data)

/-- The effective timeout (file-tools.ts lines 366-368): a truthy
timeout argument of at most 600000 is used, anything else falls back to
120000. -/
def bashTimeout (args : Args) : Int :=
  match lookupArg args "timeout" with
  | some (.jnum n) => if n ≠ 0 ∧ n ≤ 600000 then n else 120000
  | _ => 120000

/-- The failure result BashTool returns when the deny list fires. -/
def bashBlockedResult (command : String) : ToolResult :=
  { success := false, output := ""
  , error := some ("Dangerous command detected and blocked: \"" ++ command ++
      "\". This command could cause system damage. Please run it manually if you\x27re certain.") }

/-- BashTool.execute (file-tools.ts lines 356-400). Spawning the child
process is an external effect; it enters the embedding as the `spawn`
function from command and timeout to the result the process run would
produce, so that reaching `spawn` is exactly spawning a process. -/
def bashRun (spawn : String → Int → ToolResult) (args : Args) : ToolResult :=
  let command := argStr args "command"
  if isDangerousBash command then
    bashBlockedResult command
  else
    spawn command (bashTimeout args)

/-- The bash tool as registered: name bash, confirmation required,
destructive. -/
def bashToolT (spawn : String → Int → ToolResult) : ToolT :=
  { name := "bash", requiresConfirmation := true, destructive := true
  , run := bashRun spawn }

/-! ## The git push tool (src/lib/tools/git-tools.ts, GitPushTool) -/

/-- What GitPushTool.execute does before any remote interaction: either
return the blocking failure result, or invoke the underlying git push
with a remote, a branch, and an option list. -/
inductive GitPushOutcome where
  | blockedErr (r : ToolResult)
  | push (remote : String) (branch : String) (options : List String)
deriving DecidableEq, Repr

/-- The failure result for a blocked force push (git-tools.ts lines
274-277). -/
def gitPushBlockedResult : ToolResult :=
  { success := false, output := ""
  , error := some ("Force push to main/master branch is blocked for safety. " ++
      "Please run this manually if absolutely necessary.") }

/-- GitPushTool.execute (git-tools.ts lines 270-291) up to the git call:
the guard compares the explicit branch argument against main and master,
then the options list is built and the push targets the explicit branch
or, when absent, the current branch read from the repository. -/
def gitPushExecute (branch : Option String) (force set_upstream : Bool)
    (currentBranch : String) : GitPushOutcome :=
  if force && (branch == some "main" || branch == some "master") then
    .blockedErr gitPushBlockedResult
  else
    .push "origin" (branch.getD currentBranch)
      ((if force then ["--force"] else []) ++ (if set_upstream then ["--set-upstream"] else []))

/-! ## The edit file tool (src/lib/tools/file-tools.ts, EditFileTool)

JavaScript String.replace with a string pattern substitutes the first
occurrence after expanding the dollar substitution forms of the
GetSubstitution algorithm in the replacement string; split followed by
join substitutes every occurrence scanning left to right with NO
substitution in the joined separator. Both are embedded over character
lists. -/

/-- The GetSubstitution expansion JavaScript applies to the replacement
string of String.replace with a string search: a doubled dollar is a
literal dollar, dollar-ampersand is the matched text, dollar-backquote
is the text before the match, dollar-singlequote is the text after the
match, and any other dollar sequence is literal. A string search has no
capture groups, so the numbered and named forms stay literal and are
covered by the catch-all. -/
def expandRepl (matched before after : List Char) : List Char → List Char
  | [] => []
  | [c] => [c]
  | c :: d :: rest =>
      if c = '$' then
        if d = '$' then '$' :: expandRepl matched before after rest
        else if d = '&' then matched ++ expandRepl matched before after rest
        else if d = '\x60' then before ++ expandRepl matched before after rest
        else if d = '\x27' then after ++ expandRepl matched before after rest
        else c :: d :: expandRepl matched before after rest
      else c :: expandRepl matched before after (d :: rest)

/-- Scanner for the first occurrence: `seen` holds the consumed prefix
reversed; at the first match the result is prefix, expanded
replacement, suffix. For a string search the matched text is the
search string itself. -/
def repFirstSubAux (pat rep : List Char) : List Char → List Char → List Char
  | seen, [] =>
      if pat.isEmpty then seen.reverse ++ expandRepl pat seen.reverse [] rep
      else seen.reverse
  | seen, c :: cs =>
      if hasPfx pat (c :: cs) then
        seen.reverse ++ expandRepl pat seen.reverse ((c :: cs).drop pat.length) rep ++
          (c :: cs).drop pat.length
      else repFirstSubAux pat rep (c :: seen) cs

/-- First-occurrence replacement, the JavaScript
content.replace(search, replacement) with a string search, dollar
substitution included. -/
def replaceFirstL (pat rep l : List Char) : List Char :=
  repFirstSubAux pat rep [] l

/-- Fuel-bounded splitting on a non-empty separator, accumulating the
current segment in reverse; fuel at least the input length plus one
makes the bound irrelevant. -/
def splitFuel (pat : List Char) : Nat → List Char → List Char → List (List Char)
  | 0, acc, l => [acc.reverse ++ l]
  | _ + 1, acc, [] => [acc.reverse]
  | fuel + 1, acc, c :: cs =>
      if hasPfx pat (c :: cs) then
        acc.reverse :: splitFuel pat fuel [] ((c :: cs).drop pat.length)
      else
        splitFuel pat fuel (c :: acc) cs

/-- JavaScript String.split with a string separator, including the
empty-separator case which splits into single characters. -/
def splitAllL (pat l : List Char) : List (List Char) :=
  if pat.isEmpty then l.map (fun c => [c])
  else splitFuel pat (l.length + 1) [] l

/-- JavaScript Array.join with a separator. -/
def joinSep (sep : List Char) : List (List Char) → List Char
  | [] => []
  | [s] => s
  | s :: ss => s ++ sep ++ joinSep sep ss

/-- The replacement EditFileTool performs (file-tools.ts lines 129-134):
split-join when replace_all, first occurrence otherwise. -/
def applyEditL (l pat rep : List Char) (replaceAll : Bool) : List Char :=
  if replaceAll then joinSep rep (splitAllL pat l)
  else replaceFirstL pat rep l

/-- String-level wrapper for `applyEditL`. -/
def applyEdit (orig search repl : String) (replaceAll : Bool) : String :=
  ⟨applyEditL orig.data search.data repl.data replaceAll⟩

/-- The failure result when the replacement left the content unchanged
(file-tools.ts line 137). -/
def editNotFoundError (search : String) : ToolResult :=
  { success := false, output := ""
  , error := some ("Search text not found in file: \"" ++ search ++ "\"") }

/-- The occurrence count reported on success (file-tools.ts lines
150-152). -/
def editOccurrences (orig search : String) (replaceAll : Bool) : Nat :=
  if replaceAll then (splitAllL search.data orig.data).length - 1 else 1

/-- EditFileTool.execute on an existing file (file-tools.ts lines
126-157): perform the replacement, return the not-found failure without
writing when the content is unchanged, otherwise write the new content
and report success. The diff rendering is an external collaborator and
enters as the `diffText` function; the second component of the result is
the content written to disk, none when no write happened. -/
def editFileCore (diffText : String → String → String)
    (filePath orig search repl : String) (replaceAll : Bool) :
    ToolResult × Option String :=
  let newContent := applyEdit orig search repl replaceAll
  if orig = newContent then
    (editNotFoundError search, none)
  else
    let occurrences := editOccurrences orig search replaceAll
    ({ success := true
     , output := "Edited " ++ filePath ++ " (" ++ toString occurrences ++
         " replacement" ++ (if occurrences > 1 then "s" else "") ++ ")\n\nDiff:\n" ++
         diffText orig newContent
     , error := none }, some newContent)

/-! ## Helper lemmas -/

/-- The executor returns one result per call. -/
theorem executeMultipleSt_length (env : ExecEnv) :
    ∀ (st : ExecSt) (calls : List ToolCall),
      (executeMultipleSt env st calls).1.length = calls.length := by
  intro st calls
  induction calls generalizing st with
  | nil => rfl
  | cons c cs ih => simp [executeMultipleSt, ih]

/-- One tool message per call when the result list has matching length. -/
theorem toolMessages_length (calls : List ToolCall) (results : List ToolResult)
    (h : results.length = calls.length) :
    (toolMessages calls results).length = calls.length := by
  simp [toolMessages, h]

/-- Index form of the call-to-message mapping. -/
theorem toolMessages_getD (calls : List ToolCall) (results : List ToolResult)
    (h : results.length = calls.length) :
    ∀ i, i < calls.length →
      (toolMessages calls results).getD i (Msg.system "") =
        Msg.toolMsg (toolResultContent (results.getD i ⟨false, "", none⟩))
          ((calls.getD i ⟨"", "", []⟩).id) ((calls.getD i ⟨"", "", []⟩).name) := by
  induction calls generalizing results with
  | nil => intro i hi; simp at hi
  | cons c cs ih =>
      intro i hi
      cases results with
      | nil => simp at h
      | cons r rs =>
          cases i with
          | zero => rfl
          | succ j =>
              have hlen : rs.length = cs.length := by simpa using h
              have hj : j < cs.length := by simpa using hi
              simpa [toolMessages, List.getD] using ih rs hlen j hj

/-- One loop iteration whose response carries a non-empty call list
executes the batch, appends the assistant-with-calls message and the
tool messages, and continues. -/
theorem runLoop_step_calls (env : ExecEnv) (responses : Nat → ModelResponse)
    (fuel k : Nat) (st : ExecSt) (msgs : List Msg) (t : String)
    (a : ToolCall) (as : List ToolCall)
    (hk : responses k = ModelResponse.ok t (a :: as)) :
    runLoop env responses (fuel + 1) k st msgs =
      runLoop env responses fuel (k + 1) (executeMultipleSt env st (a :: as)).2
        (msgs ++ Msg.assistant t (a :: as) ::
          toolMessages (a :: as) (executeMultipleSt env st (a :: as)).1) := by
  simp only [runLoop]
  rw [hk]
  rfl

/-- One loop iteration whose response carries no calls appends the
final assistant message and stops. -/
theorem runLoop_step_empty (env : ExecEnv) (responses : Nat → ModelResponse)
    (fuel k : Nat) (st : ExecSt) (msgs : List Msg) (t : String)
    (hk : responses k = ModelResponse.ok t []) :
    runLoop env responses (fuel + 1) k st msgs =
      (msgs ++ [Msg.assistant t []], st, k + 1, none) := by
  simp only [runLoop]
  rw [hk]
  rfl

/-- When every consulted response carries a non-empty call list the
loop runs its full fuel, ends without error at iteration count k plus
fuel, and only ever appends to the transcript, by at most 1 + B
messages per iteration when call lists are bounded by B. -/
theorem runLoop_all_calls (env : ExecEnv) (responses : Nat → ModelResponse) (B : Nat)
    (hB : ∀ k t cs, responses k = ModelResponse.ok t cs → cs.length ≤ B) :
    ∀ (fuel k : Nat) (st : ExecSt) (msgs : List Msg),
      (∀ j, k ≤ j → j < k + fuel → ∃ t cs, responses j = ModelResponse.ok t cs ∧ cs ≠ []) →
      ∃ ext st2, runLoop env responses fuel k st msgs = (msgs ++ ext, st2, k + fuel, none) ∧
        ext.length ≤ fuel * (1 + B) := by
  intro fuel
  induction fuel with
  | zero =>
      intro k st msgs _
      exact ⟨[], st, by simp [runLoop], by simp⟩
  | succ fuel ih =>
      intro k st msgs h
      obtain ⟨t, cs, hk, hne⟩ := h k (le_refl k) (by omega)
      obtain ⟨a, as, rfl⟩ : ∃ a as, cs = a :: as := by
        cases cs with
        | nil => exact absurd rfl hne
        | cons a as => exact ⟨a, as, rfl⟩
      obtain ⟨ext, st2, heq, hlen⟩ := ih (k + 1) (executeMultipleSt env st (a :: as)).2
        (msgs ++ Msg.assistant t (a :: as) ::
          toolMessages (a :: as) (executeMultipleSt env st (a :: as)).1)
        (fun j hj1 hj2 => h j (by omega) (by omega))
      refine ⟨Msg.assistant t (a :: as) ::
          (toolMessages (a :: as) (executeMultipleSt env st (a :: as)).1 ++ ext), st2, ?_, ?_⟩
      · have hN : k + 1 + fuel = k + (fuel + 1) := by omega
        rw [runLoop_step_calls env responses fuel k st msgs t a as hk, heq, hN]
        simp [List.append_assoc]
      · have htm : (toolMessages (a :: as) (executeMultipleSt env st (a :: as)).1).length =
            (a :: as).length :=
          toolMessages_length _ _ (executeMultipleSt_length env st (a :: as))
        have hcb : (a :: as).length ≤ B := hB k t (a :: as) hk
        simp only [List.length_cons, List.length_append]
        have hexp : (fuel + 1) * (1 + B) = (1 + B) + fuel * (1 + B) := by ring
        rw [hexp]
        set m := fuel * (1 + B) with hm
        omega

/-- One loop iteration whose provider call raises propagates the error
out of the loop with the transcript untouched. -/
theorem runLoop_step_err (env : ExecEnv) (responses : Nat → ModelResponse)
    (fuel k : Nat) (st : ExecSt) (msgs : List Msg) (e : String)
    (hk : responses k = ModelResponse.errResp e) :
    runLoop env responses (fuel + 1) k st msgs = (msgs, st, k + 1, some e) := by
  simp only [runLoop]
  rw [hk]

/-- The tool messages of a non-empty batch end with a tool message. -/
theorem toolMessages_ends (calls : List ToolCall) :
    ∀ results : List ToolResult, calls ≠ [] → results.length = calls.length →
      ∃ rest content id name,
        toolMessages calls results = rest ++ [Msg.toolMsg content id name] := by
  induction calls with
  | nil => intro results hne _; exact absurd rfl hne
  | cons c cs ih =>
      intro results _ hlen
      cases results with
      | nil => simp at hlen
      | cons r rs =>
          cases cs with
          | nil =>
              have hrs : rs = [] := by
                cases rs with
                | nil => rfl
                | cons r2 rs2 => simp at hlen
              subst hrs
              exact ⟨[], toolResultContent r, c.id, c.name, rfl⟩
          | cons c2 cs2 =>
              have hlen2 : rs.length = (c2 :: cs2).length := by simpa using hlen
              obtain ⟨rest, content, id, name, htail⟩ := ih rs (by simp) hlen2
              refine ⟨Msg.toolMsg (toolResultContent r) c.id c.name :: rest,
                content, id, name, ?_⟩
              show Msg.toolMsg (toolResultContent r) c.id c.name ::
                toolMessages (c2 :: cs2) rs = _
              rw [htail]
              rfl

/-- When the first n consulted responses carry non-empty call lists and
the next one raises, the loop ends with the error after n plus one
iterations, appending only: nothing when n is zero, and otherwise
blocks whose last message is a tool message. -/
theorem runLoop_calls_then_err (env : ExecEnv) (responses : Nat → ModelResponse) (e : String) :
    ∀ (n fuel k : Nat) (st : ExecSt) (msgs : List Msg),
      n < fuel →
      (∀ j, k ≤ j → j < k + n → ∃ t cs, responses j = ModelResponse.ok t cs ∧ cs ≠ []) →
      responses (k + n) = ModelResponse.errResp e →
      ∃ ext st2,
        runLoop env responses fuel k st msgs = (msgs ++ ext, st2, k + n + 1, some e) ∧
        (n = 0 → ext = []) ∧
        (0 < n → ∃ rest content id name, ext = rest ++ [Msg.toolMsg content id name]) := by
  intro n
  induction n with
  | zero =>
      intro fuel k st msgs hfuel _ herr
      obtain ⟨f, rfl⟩ : ∃ f, fuel = f + 1 := ⟨fuel - 1, by omega⟩
      rw [Nat.add_zero] at herr
      refine ⟨[], st, ?_, fun _ => rfl, fun h => absurd h (by omega)⟩
      rw [runLoop_step_err env responses f k st msgs e herr]
      simp
  | succ n ih =>
      intro fuel k st msgs hfuel hpre herr
      obtain ⟨f, rfl⟩ : ∃ f, fuel = f + 1 := ⟨fuel - 1, by omega⟩
      obtain ⟨t, cs, hk0, hne⟩ := hpre k (le_refl k) (by omega)
      obtain ⟨a, as, rfl⟩ : ∃ a as, cs = a :: as := by
        cases cs with
        | nil => exact absurd rfl hne
        | cons a as => exact ⟨a, as, rfl⟩
      have herr2 : responses (k + 1 + n) = ModelResponse.errResp e := by
        have hN : k + 1 + n = k + (n + 1) := by omega
        rw [hN]
        exact herr
      obtain ⟨ext, st2, heq, hnil, hend⟩ := ih f (k + 1) (executeMultipleSt env st (a :: as)).2
        (msgs ++ Msg.assistant t (a :: as) ::
          toolMessages (a :: as) (executeMultipleSt env st (a :: as)).1)
        (by omega) (fun j hj1 hj2 => hpre j (by omega) (by omega)) herr2
      refine ⟨Msg.assistant t (a :: as) ::
          (toolMessages (a :: as) (executeMultipleSt env st (a :: as)).1 ++ ext), st2, ?_, ?_, ?_⟩
      · rw [runLoop_step_calls env responses f k st msgs t a as hk0, heq]
        have hN : k + 1 + n + 1 = k + (n + 1) + 1 := by omega
        rw [hN]
        simp [List.append_assoc]
      · intro h
        exact absurd h (Nat.succ_ne_zero n)
      · intro _
        by_cases hn : n = 0
        · subst hn
          have hext : ext = [] := hnil rfl
          subst hext
          obtain ⟨rest, content, id, name, hTM⟩ := toolMessages_ends (a :: as)
            (executeMultipleSt env st (a :: as)).1 (by simp)
            (executeMultipleSt_length env st (a :: as))
          refine ⟨Msg.assistant t (a :: as) :: rest, content, id, name, ?_⟩
          rw [List.append_nil, hTM]
          rfl
        · obtain ⟨rest, content, id, name, hext⟩ := hend (by omega)
          refine ⟨Msg.assistant t (a :: as) ::
            (toolMessages (a :: as) (executeMultipleSt env st (a :: as)).1 ++ rest),
            content, id, name, ?_⟩
          rw [hext]
          simp

/-! ## C1 -/

/-- C1: shouldConfirm implements the three-branch decision table in
order: under auto-confirm with safe-mode off it returns exactly
isExtremelyDangerous; under safe-mode every destructive tool is
confirmed regardless of requiresConfirmation; otherwise the per-tool
flag decides. -/
theorem shouldConfirm_decision_table :
    (∀ (prefs : Prefs) (tool : ToolT) (args : Args),
       shouldConfirm prefs tool args = shouldConfirmSpec prefs tool args) ∧
    (∀ (ac rq : Bool) (nm : String) (run : Args → ToolResult) (args : Args),
       shouldConfirm ⟨ac, true⟩ ⟨nm, rq, true, run⟩ args = true) ∧
    (∀ (rq d : Bool) (nm : String) (run : Args → ToolResult) (args : Args),
       shouldConfirm ⟨true, false⟩ ⟨nm, rq, d, run⟩ args =
         isExtremelyDangerous ⟨nm, rq, d, run⟩ args) := by
  refine ⟨?_, ?_, ?_⟩
  · intro prefs tool args
    obtain ⟨ac, sm⟩ := prefs
    cases ac <;> cases sm <;> cases htool : tool.destructive <;>
      simp [shouldConfirm, shouldConfirmSpec, htool]
  · intro ac rq nm run args
    cases ac <;> simp [shouldConfirm]
  · intro rq d nm run args
    simp [shouldConfirm]

/-! ## C2 -/

/-- C2: when every model response carries a non-empty tool-call list
the turn still terminates: the loop stops at the fixed cap of 10
iterations, the warning flag is set, the turn reports success, the
transcript keeps the user message with everything appended after it (no
rollback), and its length is bounded by the cap times one-plus-B when
call lists are bounded by B. -/
theorem processUserInput_iteration_cap (env : ExecEnv)
    (responses : Nat → ModelResponse) (input : String) (st : ExecSt)
    (msgs0 : List Msg) (B : Nat)
    (h : ∀ k, k < maxIterations → ∃ t cs, responses k = ModelResponse.ok t cs ∧ cs ≠ [])
    (hB : ∀ k t cs, responses k = ModelResponse.ok t cs → cs.length ≤ B) :
    (processUserInput env responses input st msgs0).result = PResult.ok ∧
    (processUserInput env responses input st msgs0).iterations = maxIterations ∧
    (processUserInput env responses input st msgs0).warned = true ∧
    (∃ ext, (processUserInput env responses input st msgs0).messages =
        msgs0 ++ Msg.user input :: ext) ∧
    (processUserInput env responses input st msgs0).messages.length ≤
      msgs0.length + 1 + maxIterations * (1 + B) := by
  obtain ⟨ext, st2, heq, hlen⟩ := runLoop_all_calls env responses B hB maxIterations 0 st
    (msgs0 ++ [Msg.user input]) (fun j hj1 hj2 => h j (by simpa using hj2))
  unfold processUserInput
  simp only [heq]
  refine ⟨by simp, by simp, by decide, ⟨ext, by simp⟩, ?_⟩
  simp only [List.length_append, List.length_cons, List.length_nil]
  omega

/-- Witness for C2: a provider that always answers with one tool call
drives the loop to the cap with the warning raised. -/
theorem processUserInput_iteration_cap_witness :
    (processUserInput
        { registry := fun _ => none, prefs := ⟨false, false⟩
        , prompt := fun _ _ => (true, false) }
        (fun _ => ModelResponse.ok "go" [⟨"i", "x", []⟩]) "hi" [] []).iterations =
      maxIterations ∧
    (processUserInput
        { registry := fun _ => none, prefs := ⟨false, false⟩
        , prompt := fun _ _ => (true, false) }
        (fun _ => ModelResponse.ok "go" [⟨"i", "x", []⟩]) "hi" [] []).warned = true := by
  have h := processUserInput_iteration_cap
    { registry := fun _ => none, prefs := ⟨false, false⟩
    , prompt := fun _ _ => (true, false) }
    (fun _ => ModelResponse.ok "go" [⟨"i", "x", []⟩]) "hi" [] [] 1
    (fun k _ => ⟨"go", [⟨"i", "x", []⟩], rfl, by simp⟩)
    (fun k t cs hcs => by cases hcs; decide)
  exact ⟨h.2.1, h.2.2.1⟩

/-! ## C3 -/

/-- C3: a turn whose first response carries a non-empty call list and
whose second carries none appends exactly the user message, one
assistant message with the calls, one tool message per call in call
order (content from success output or Error plus error text, correlated
by call id and name), and one final assistant message, then stops after
two iterations. -/
theorem processUserInput_single_round (env : ExecEnv)
    (responses : Nat → ModelResponse) (input : String) (st : ExecSt)
    (msgs0 : List Msg) (t1 t2 : String) (calls : List ToolCall)
    (h0 : responses 0 = ModelResponse.ok t1 calls) (hne : calls ≠ [])
    (h1 : responses 1 = ModelResponse.ok t2 []) :
    (processUserInput env responses input st msgs0).messages =
      msgs0 ++ Msg.user input :: Msg.assistant t1 calls ::
        (toolMessages calls (executeMultipleSt env st calls).1 ++ [Msg.assistant t2 []]) ∧
    (toolMessages calls (executeMultipleSt env st calls).1).length = calls.length ∧
    (processUserInput env responses input st msgs0).iterations = 2 ∧
    (processUserInput env responses input st msgs0).result = PResult.ok ∧
    (∀ i, i < calls.length →
      (toolMessages calls (executeMultipleSt env st calls).1).getD i (Msg.system "") =
        Msg.toolMsg (toolResultContent ((executeMultipleSt env st calls).1.getD i ⟨false, "", none⟩))
          ((calls.getD i ⟨"", "", []⟩).id) ((calls.getD i ⟨"", "", []⟩).name)) := by
  obtain ⟨a, as, rfl⟩ : ∃ a as, calls = a :: as := by
    cases calls with
    | nil => exact absurd rfl hne
    | cons a as => exact ⟨a, as, rfl⟩
  have hstep : runLoop env responses maxIterations 0 st (msgs0 ++ [Msg.user input]) =
      (((msgs0 ++ [Msg.user input]) ++ Msg.assistant t1 (a :: as) ::
          toolMessages (a :: as) (executeMultipleSt env st (a :: as)).1) ++ [Msg.assistant t2 []],
        (executeMultipleSt env st (a :: as)).2, 2, none) := by
    have e1 : maxIterations = 9 + 1 := rfl
    rw [e1, runLoop_step_calls env responses 9 0 st (msgs0 ++ [Msg.user input]) t1 a as h0]
    have e2 : (9 : Nat) = 8 + 1 := rfl
    have e3 : (0 : Nat) + 1 = 1 := rfl
    rw [e2, e3, runLoop_step_empty env responses 8 1 _ _ t2 h1]
  unfold processUserInput
  simp only [hstep]
  refine ⟨by simp, toolMessages_length _ _ (executeMultipleSt_length env st (a :: as)),
    by simp, by simp, toolMessages_getD _ _ (executeMultipleSt_length env st (a :: as))⟩

/-- Witness for C3: one concrete call against an empty registry yields
the user message, the assistant message with the call, one tool error
message, and the final assistant message. -/
theorem processUserInput_single_round_witness :
    (processUserInput
        { registry := fun _ => none, prefs := ⟨false, false⟩
        , prompt := fun _ _ => (true, false) }
        (fun k => if k = 0 then ModelResponse.ok "t1" [⟨"id1", "read_file", []⟩]
                  else ModelResponse.ok "t2" []) "hi" [] [Msg.system "s"]).messages =
      [Msg.system "s", Msg.user "hi",
       Msg.assistant "t1" [⟨"id1", "read_file", []⟩],
       Msg.toolMsg "Error: Tool \x27read_file\x27 not found" "id1" "read_file",
       Msg.assistant "t2" []] ∧
    (processUserInput
        { registry := fun _ => none, prefs := ⟨false, false⟩
        , prompt := fun _ _ => (true, false) }
        (fun k => if k = 0 then ModelResponse.ok "t1" [⟨"id1", "read_file", []⟩]
                  else ModelResponse.ok "t2" []) "hi" [] [Msg.system "s"]).iterations = 2 := by
  have h := processUserInput_single_round
    { registry := fun _ => none, prefs := ⟨false, false⟩
    , prompt := fun _ _ => (true, false) }
    (fun k => if k = 0 then ModelResponse.ok "t1" [⟨"id1", "read_file", []⟩]
              else ModelResponse.ok "t2" []) "hi" [] [Msg.system "s"] "t1" "t2"
    [⟨"id1", "read_file", []⟩] rfl (by simp) rfl
  refine ⟨?_, h.2.2.1⟩
  rw [h.1]
  rfl

/-! ## C4 -/

/-- C4: the session confirmation-memory key is built from the raw
JSON.stringify of the argument object, which preserves property
insertion order, so two structurally-equal argument maps inserted in
different orders produce different keys and the remembered confirmation
is not recognized. The two argument lists below hold the same key/value
pairs yet yield distinct keys. -/
theorem overrideKey_depends_on_insertion_order :
    List.Perm [("a", Jval.jnum 1), ("b", Jval.jnum 2)]
      [("b", Jval.jnum 2), ("a", Jval.jnum 1)] ∧
    overrideKey "bash" [("a", Jval.jnum 1), ("b", Jval.jnum 2)] ≠
      overrideKey "bash" [("b", Jval.jnum 2), ("a", Jval.jnum 1)] := by
  constructor
  · exact List.Perm.swap _ _ _
  · decide

/-! ## C6 -/

/-- Default result used only as a getD fallback. -/
def blankResult : ToolResult := ⟨false, "", none⟩

/-- Default call used only as a getD fallback. -/
def blankCall : ToolCall := ⟨"", "", []⟩

/-- C6: executeMultiple runs calls sequentially in order: the result
list has the same length as the call list, the batch continues past any
head call whatever its outcome — in particular a head call whose result
has success false still leaves every remaining call executed, with the
full result count preserved — and the result at index i is the outcome
of the call at index i run in the state left by the first i calls. -/
theorem executeMultiple_sequential_order :
    (∀ (env : ExecEnv) (st : ExecSt) (calls : List ToolCall),
       (executeMultipleSt env st calls).1.length = calls.length) ∧
    (∀ (env : ExecEnv) (st : ExecSt) (c : ToolCall) (cs : List ToolCall),
       (executeMultipleSt env st (c :: cs)).1 =
         (executeSingleSt env st c).1 ::
           (executeMultipleSt env (executeSingleSt env st c).2 cs).1) ∧
    (∀ (env : ExecEnv) (st : ExecSt) (c : ToolCall) (cs : List ToolCall),
       (executeSingleSt env st c).1.success = false →
       (executeMultipleSt env st (c :: cs)).1 =
         (executeSingleSt env st c).1 ::
           (executeMultipleSt env (executeSingleSt env st c).2 cs).1 ∧
       (executeMultipleSt env st (c :: cs)).1.length = cs.length + 1 ∧
       (executeMultipleSt env (executeSingleSt env st c).2 cs).1.length = cs.length) ∧
    (∀ (env : ExecEnv) (st : ExecSt) (calls : List ToolCall) (i : Nat),
       i < calls.length →
       (executeMultipleSt env st calls).1.getD i blankResult =
         (executeSingleSt env (executeMultipleSt env st (calls.take i)).2
           (calls.getD i blankCall)).1) := by
  refine ⟨executeMultipleSt_length, ?_, ?_, ?_⟩
  · intro env st c cs
    simp [executeMultipleSt]
  · intro env st c cs _
    refine ⟨by simp [executeMultipleSt], ?_, executeMultipleSt_length env _ cs⟩
    rw [executeMultipleSt_length env st (c :: cs)]
    rfl
  · intro env st calls
    induction calls generalizing st with
    | nil => intro i hi; simp at hi
    | cons c cs ih =>
        intro i hi
        cases i with
        | zero => rfl
        | succ j =>
            have hj : j < cs.length := by simpa using hi
            simpa [executeMultipleSt, List.getD] using
              ih (executeSingleSt env st c).2 j hj

/-- Witness for C6: the head call of a two-call batch fails (its tool
is unregistered), yet the batch still yields one result per call and
the result at index 1 is the second call run in the state left by the
first. -/
theorem executeMultiple_sequential_order_witness :
    (executeSingleSt
        { registry := fun _ => none, prefs := ⟨false, false⟩
        , prompt := fun _ _ => (true, false) } [] blankCall).1.success = false ∧
    (executeMultipleSt
        { registry := fun _ => none, prefs := ⟨false, false⟩
        , prompt := fun _ _ => (true, false) } []
        [blankCall, ToolCall.mk "i2" "t2" []]).1.length =
      ([ToolCall.mk "i2" "t2" []] : List ToolCall).length + 1 ∧
    1 < ([blankCall, ToolCall.mk "i2" "t2" []] : List ToolCall).length ∧
    (executeMultipleSt
        { registry := fun _ => none, prefs := ⟨false, false⟩
        , prompt := fun _ _ => (true, false) } [] [blankCall, ToolCall.mk "i2" "t2" []]).1.getD 1 blankResult =
      (executeSingleSt
        { registry := fun _ => none, prefs := ⟨false, false⟩
        , prompt := fun _ _ => (true, false) }
        (executeMultipleSt
          { registry := fun _ => none, prefs := ⟨false, false⟩
          , prompt := fun _ _ => (true, false) } []
          ([blankCall, ToolCall.mk "i2" "t2" []].take 1)).2
        ([blankCall, ToolCall.mk "i2" "t2" []].getD 1 blankCall)).1 :=
  ⟨by decide,
   ((executeMultiple_sequential_order.2.2.1
      { registry := fun _ => none, prefs := ⟨false, false⟩
      , prompt := fun _ _ => (true, false) } [] blankCall [ToolCall.mk "i2" "t2" []]
      (by decide)).2).1,
   by decide,
   executeMultiple_sequential_order.2.2.2
    { registry := fun _ => none, prefs := ⟨false, false⟩
    , prompt := fun _ _ => (true, false) } [] [blankCall, ToolCall.mk "i2" "t2" []] 1 (by decide)⟩

/-! ## C7 -/

/-- C7: for a call that needs confirmation and is not remembered, a
declining user yields the cancellation result with the session memory
untouched and the tool body never consulted (the outcome is the same
for every tool behaviour), while accept-and-remember stores the key and
makes an identical later call run without consulting the prompt at all
(the outcome is the same for every prompt behaviour). -/
theorem confirmation_decline_and_remember (env : ExecEnv) (st : ExecSt)
    (call : ToolCall) (tool : ToolT)
    (hreg : env.registry call.name = some tool)
    (hconf : shouldConfirm env.prefs tool call.args = true)
    (hmem : List.contains st (overrideKey tool.name call.args) = false) :
    (∀ rem, env.prompt tool call.args = (false, rem) →
       executeSingleSt env st call =
         ({ success := false, output := "", error := some "Operation cancelled by user" }, st)) ∧
    (env.prompt tool call.args = (true, true) →
       executeSingleSt env st call =
         (tool.run call.args, overrideKey tool.name call.args :: st) ∧
       ∀ (prompt2 : ToolT → Args → Bool × Bool),
         executeSingleSt { env with prompt := prompt2 }
             (overrideKey tool.name call.args :: st) call =
           (tool.run call.args, overrideKey tool.name call.args :: st)) := by
  have hmem' : overrideKey tool.name call.args ∉ st := by simpa using hmem
  constructor
  · intro rem hp
    simp [executeSingleSt, hreg, hconf, hmem', hp]
  · intro hp
    constructor
    · simp [executeSingleSt, hreg, hconf, hmem', hp]
    · intro prompt2
      simp [executeSingleSt, hreg, hconf]

/-- Witness for C7: a concrete write_file call under safe mode with an
accept-and-remember answer records the key and returns the tool result. -/
theorem confirmation_decline_and_remember_witness :
    executeSingleSt
        { registry := fun n => if n = "write_file" then
            some { name := "write_file", requiresConfirmation := true
                 , destructive := true, run := fun _ => ⟨true, "ok", none⟩ } else none
        , prefs := ⟨false, true⟩, prompt := fun _ _ => (true, true) }
        [] ⟨"id1", "write_file", [("file_path", Jval.jstr "a.txt")]⟩ =
      (⟨true, "ok", none⟩,
       [overrideKey "write_file" [("file_path", Jval.jstr "a.txt")]]) :=
  ((confirmation_decline_and_remember
      { registry := fun n => if n = "write_file" then
          some { name := "write_file", requiresConfirmation := true
               , destructive := true, run := fun _ => ⟨true, "ok", none⟩ } else none
      , prefs := ⟨false, true⟩, prompt := fun _ _ => (true, true) }
      [] ⟨"id1", "write_file", [("file_path", Jval.jstr "a.txt")]⟩
      { name := "write_file", requiresConfirmation := true
      , destructive := true, run := fun _ => ⟨true, "ok", none⟩ }
      rfl rfl rfl).2 rfl).1

/-! ## C8 -/

/-- C8: a bash command matching a deny pattern is rejected with the
blocking failure result; the outcome does not depend on the spawn
behaviour, so no child process is reached; and through the executor the
observable result is the user cancellation or the block, regardless of
the confirmation outcome. The trailing conjuncts check one
representative command per hard-coded deny pattern. -/
theorem bash_deny_patterns_block (spawn : String → Int → ToolResult) (args : Args)
    (h : isDangerousBash (argStr args "command") = true) :
    bashRun spawn args = bashBlockedResult (argStr args "command") ∧
    (bashRun spawn args).success = false ∧
    (∀ spawn2, bashRun spawn2 args = bashRun spawn args) ∧
    (∀ (env : ExecEnv) (st : ExecSt) (id : String),
       env.registry "bash" = some (bashToolT spawn) →
       (executeSingleSt env st ⟨id, "bash", args⟩).1 =
           ({ success := false, output := "", error := some "Operation cancelled by user" } : ToolResult) ∨
       (executeSingleSt env st ⟨id, "bash", args⟩).1 = bashBlockedResult (argStr args "command")) ∧
    isDangerousBash "rm -rf /" = true ∧
    isDangerousBash "mkfs /dev/sda1" = true ∧
    isDangerousBash "dd if=/dev/zero of=/dev/sda" = true ∧
    isDangerousBash "cat x > /dev/sda" = true ∧
    isDangerousBash "chmod -R 777 /" = true ∧
    isDangerousBash "chown -R me /" = true ∧
    isDangerousBash ":()\x7b :|:& \x7d;:" = true := by
  have hrun : ∀ sp : String → Int → ToolResult,
      bashRun sp args = bashBlockedResult (argStr args "command") := by
    intro sp
    simp [bashRun, h]
  have hrunT : (bashToolT spawn).run args = bashBlockedResult (argStr args "command") :=
    hrun spawn
  refine ⟨hrun spawn, ?_, ?_, ?_, by decide, by decide, by decide, by decide,
    by decide, by decide, by decide⟩
  · rw [hrun spawn]
    rfl
  · intro spawn2
    rw [hrun spawn2, hrun spawn]
  · intro env st id hreg
    by_cases h1 : shouldConfirm env.prefs (bashToolT spawn) args = true
    · by_cases h2 : overrideKey (bashToolT spawn).name args ∈ st
      · right
        simp [executeSingleSt, hreg, h1, h2, hrunT]
      · rcases hp : env.prompt (bashToolT spawn) args with ⟨p1, p2⟩
        cases p1
        · left
          simp [executeSingleSt, hreg, h1, h2, hp]
        · right
          simp [executeSingleSt, hreg, h1, h2, hp, hrunT]
    · right
      simp [executeSingleSt, hreg, h1, hrunT]

/-- Witness for C8: the recursive root delete is blocked regardless of
the spawn behaviour. -/
theorem bash_deny_patterns_block_witness :
    bashRun (fun _ _ => ⟨true, "ran", none⟩) [("command", Jval.jstr "rm -rf /")] =
      bashBlockedResult "rm -rf /" :=
  (bash_deny_patterns_block (fun _ _ => ⟨true, "ran", none⟩)
    [("command", Jval.jstr "rm -rf /")] (by decide)).1

/-! ## C9 -/

/-- Counterexample for C9: a force push with the branch argument
omitted while the current branch is main is not blocked — the guard
only inspects the explicit branch argument, and the underlying push of
main is invoked with the force option. -/
theorem force_push_current_main_not_blocked :
    gitPushExecute none true false "main" =
      GitPushOutcome.push "origin" "main" ["--force"] ∧
    ∀ r, gitPushExecute none true false "main" ≠ GitPushOutcome.blockedErr r := by
  have h1 : gitPushExecute none true false "main" =
      GitPushOutcome.push "origin" "main" ["--force"] := by decide
  refine ⟨h1, ?_⟩
  intro r hr
  rw [h1] at hr
  exact GitPushOutcome.noConfusion hr

/-- C9 (amended): a git_push with force=true and an explicit branch
argument of main or master returns the blocking failure (success false,
error mentioning the block) without reaching the underlying git push;
the guard does not apply when the branch argument is omitted. -/
theorem force_push_explicit_protected_blocked (b : String) (su : Bool) (cb : String)
    (h : b = "main" ∨ b = "master") :
    gitPushExecute (some b) true su cb = GitPushOutcome.blockedErr gitPushBlockedResult ∧
    gitPushBlockedResult.success = false ∧
    strContainsSub (gitPushBlockedResult.error.getD "") "blocked" = true := by
  refine ⟨?_, rfl, by decide⟩
  rcases h with h | h <;> subst h <;> rfl

/-- Witness for C9: the blocked force push to an explicit main while on
another branch. -/
theorem force_push_explicit_protected_blocked_witness :
    gitPushExecute (some "main") true false "dev" =
      GitPushOutcome.blockedErr gitPushBlockedResult :=
  (force_push_explicit_protected_blocked "main" false "dev" (Or.inl rfl)).1

/-! ## C5 -/

/-- Counterexample for C5: a provider error whose text matches none of
the model-error markers is classified unknown and the just-appended
user message is NOT removed from the history — the rollback happens
only when isModelError recognizes the text. -/
theorem provider_error_keeps_user_message :
    (processUserInput
        { registry := fun _ => none, prefs := ⟨false, false⟩
        , prompt := fun _ _ => (true, false) }
        (fun _ => ModelResponse.errResp "boom") "hi" [] [Msg.system "s"]).messages =
      [Msg.system "s", Msg.user "hi"] ∧
    (processUserInput
        { registry := fun _ => none, prefs := ⟨false, false⟩
        , prompt := fun _ _ => (true, false) }
        (fun _ => ModelResponse.errResp "boom") "hi" [] [Msg.system "s"]).result =
      PResult.failed "boom" false ErrType.unknown := by
  constructor <;> rfl

/-- C5 (amended): when the provider call raises on the first iteration,
processUserInput returns a structured failure whose errorType is the
substring classification of the error text and never throws; the
history is rolled back only when the text matches the model-error
marker list, and what the pop removes is the last message of the
accumulated transcript — the just-appended user message when the error
hits the first provider call of the turn, but the most recent tool
message when an earlier iteration already executed tools, in which case
the user message survives. -/
theorem provider_error_classified_and_rollback (env : ExecEnv)
    (responses : Nat → ModelResponse) (input : String) (st : ExecSt)
    (msgs0 : List Msg) (e : String) (k : Nat)
    (hk : k < maxIterations)
    (hpre : ∀ j, j < k → ∃ t cs, responses j = ModelResponse.ok t cs ∧ cs ≠ [])
    (herr : responses k = ModelResponse.errResp e) :
    (processUserInput env responses input st msgs0).result =
        PResult.failed e (isModelError e) (classifyError e) ∧
    (processUserInput env responses input st msgs0).iterations = k + 1 ∧
    (processUserInput env responses input st msgs0).warned = false ∧
    (∃ ext,
        (processUserInput env responses input st msgs0).messages =
          (if isModelError e then (msgs0 ++ Msg.user input :: ext).dropLast
           else msgs0 ++ Msg.user input :: ext) ∧
        (k = 0 → ext = []) ∧
        (0 < k → ∃ rest content id name, ext = rest ++ [Msg.toolMsg content id name])) ∧
    (k = 0 → (processUserInput env responses input st msgs0).messages =
        (if isModelError e then msgs0 else msgs0 ++ [Msg.user input])) ∧
    (0 < k → Msg.user input ∈ (processUserInput env responses input st msgs0).messages) := by
  obtain ⟨ext, st2, heq, hnil, hend⟩ := runLoop_calls_then_err env responses e k maxIterations 0
    st (msgs0 ++ [Msg.user input]) hk (fun j _ hj => hpre j (by omega)) (by simpa using herr)
  have hasc : (msgs0 ++ [Msg.user input]) ++ ext = msgs0 ++ Msg.user input :: ext := by simp
  unfold processUserInput
  simp only [heq]
  refine ⟨by simp, by simp, by simp, ⟨ext, by rw [hasc], hnil, hend⟩, ?_, ?_⟩
  · intro hk0
    subst hk0
    have hext : ext = [] := hnil rfl
    subst hext
    cases him : isModelError e <;> simp [him, List.dropLast_concat]
  · intro hpos
    obtain ⟨rest, content, id, name, hext⟩ := hend hpos
    subst hext
    cases him : isModelError e
    · simp [him]
    · have hsplit : (msgs0 ++ [Msg.user input]) ++ (rest ++ [Msg.toolMsg content id name]) =
          ((msgs0 ++ Msg.user input :: rest) ++ [Msg.toolMsg content id name]) := by simp
      simp only [him, if_true, hsplit, List.dropLast_concat]
      simp

/-- Witness for C5 (amended): a rate-limit-worded error raised on the
second provider call, after a first iteration that executed a tool, is
classified rate_limit and rolls back the last transcript message while
the user message survives. -/
theorem provider_error_classified_and_rollback_witness :
    (processUserInput
        { registry := fun _ => none, prefs := ⟨false, false⟩
        , prompt := fun _ _ => (true, false) }
        (fun j => if j = 0 then ModelResponse.ok "t" [⟨"id1", "x", []⟩]
                  else ModelResponse.errResp "429 rate limit exceeded")
        "hi" [] [Msg.system "s"]).iterations = 2 ∧
    (processUserInput
        { registry := fun _ => none, prefs := ⟨false, false⟩
        , prompt := fun _ _ => (true, false) }
        (fun j => if j = 0 then ModelResponse.ok "t" [⟨"id1", "x", []⟩]
                  else ModelResponse.errResp "429 rate limit exceeded")
        "hi" [] [Msg.system "s"]).result =
      PResult.failed "429 rate limit exceeded" true ErrType.rate_limit ∧
    Msg.user "hi" ∈ (processUserInput
        { registry := fun _ => none, prefs := ⟨false, false⟩
        , prompt := fun _ _ => (true, false) }
        (fun j => if j = 0 then ModelResponse.ok "t" [⟨"id1", "x", []⟩]
                  else ModelResponse.errResp "429 rate limit exceeded")
        "hi" [] [Msg.system "s"]).messages := by
  have h := provider_error_classified_and_rollback
    { registry := fun _ => none, prefs := ⟨false, false⟩
    , prompt := fun _ _ => (true, false) }
    (fun j => if j = 0 then ModelResponse.ok "t" [⟨"id1", "x", []⟩]
              else ModelResponse.errResp "429 rate limit exceeded")
    "hi" [] [Msg.system "s"] "429 rate limit exceeded" 1 (by decide)
    (fun j hj => by
      have hj0 : j = 0 := by omega
      subst hj0
      exact ⟨"t", [⟨"id1", "x", []⟩], rfl, by simp⟩)
    rfl
  refine ⟨h.2.1, ?_, h.2.2.2.2.2 (by omega)⟩
  rw [h.1]
  decide

/-! ## C10 -/

/-- A successful prefix match reassembles the input. -/
theorem hasPfx_append_drop (pat : List Char) :
    ∀ l, hasPfx pat l = true → pat ++ l.drop pat.length = l := by
  induction pat with
  | nil => intro l _; simp
  | cons p ps ih =>
      intro l h
      cases l with
      | nil => simp [hasPfx] at h
      | cons c cs =>
          simp only [hasPfx, Bool.and_eq_true, beq_iff_eq] at h
          obtain ⟨rfl, h2⟩ := h
          simp only [List.length_cons, List.drop_succ_cons, List.cons_append,
            List.cons.injEq, true_and]
          exact ih cs h2

/-- The empty pattern occurs in every string. -/
theorem containsL_nil_pat : ∀ l : List Char, containsL [] l = true := by
  intro l
  cases l with
  | nil => rfl
  | cons c cs => simp [containsL, hasPfx]

/-- A replacement string without a dollar character is its own
expansion. -/
theorem expandRepl_no_dollar (m b a : List Char) :
    ∀ rep, '$' ∉ rep → expandRepl m b a rep = rep := by
  intro rep
  induction rep with
  | nil => intro _; rfl
  | cons c cs ih =>
      intro h
      have hc : ¬c = '$' := fun hh => h (hh ▸ List.mem_cons_self c cs)
      have hcs : '$' ∉ cs := fun hm => h (List.mem_cons_of_mem c hm)
      cases cs with
      | nil => rfl
      | cons d rest =>
          simp only [expandRepl, hc, if_false]
          rw [ih hcs]

/-- The first-occurrence scanner leaves the input unchanged when the
pattern is replaced by itself and carries no dollar character. -/
theorem repFirstSubAux_self (pat : List Char) (hnd : '$' ∉ pat) :
    ∀ l seen, repFirstSubAux pat pat seen l = seen.reverse ++ l := by
  intro l
  induction l with
  | nil =>
      intro seen
      by_cases hp : pat.isEmpty = true
      · have hpat : pat = [] := by
          cases pat with
          | nil => rfl
          | cons p ps => simp [List.isEmpty] at hp
        subst hpat
        simp [repFirstSubAux, expandRepl]
      · simp [repFirstSubAux, hp]
  | cons c cs ih =>
      intro seen
      by_cases hpfx : hasPfx pat (c :: cs) = true
      · simp only [repFirstSubAux, hpfx, if_true]
        rw [expandRepl_no_dollar _ _ _ pat hnd, List.append_assoc,
          hasPfx_append_drop pat (c :: cs) hpfx]
      · simp only [repFirstSubAux, hpfx, Bool.false_eq_true, if_false]
        rw [ih (c :: seen)]
        simp

/-- The first-occurrence scanner leaves the input unchanged when the
pattern does not occur in it. -/
theorem repFirstSubAux_not_contains (pat rep : List Char) :
    ∀ l seen, containsL pat l = false → repFirstSubAux pat rep seen l = seen.reverse ++ l := by
  intro l
  induction l with
  | nil =>
      intro seen h
      have hp : pat.isEmpty = false := by
        cases pat with
        | nil => simp [containsL] at h
        | cons p ps => rfl
      simp [repFirstSubAux, hp]
  | cons c cs ih =>
      intro seen h
      simp only [containsL, Bool.or_eq_false_iff] at h
      simp only [repFirstSubAux, h.1, Bool.false_eq_true, if_false]
      rw [ih (c :: seen) h.2]
      simp

/-- Replacing a dollar-free pattern by itself changes nothing. -/
theorem replaceFirstL_self (pat : List Char) (hnd : '$' ∉ pat) :
    ∀ l, replaceFirstL pat pat l = l := by
  intro l
  rw [replaceFirstL, repFirstSubAux_self pat hnd l []]
  rfl

/-- Replacing an absent pattern changes nothing. -/
theorem replaceFirstL_not_contains (pat rep : List Char) :
    ∀ l, containsL pat l = false → replaceFirstL pat rep l = l := by
  intro l h
  rw [replaceFirstL, repFirstSubAux_not_contains pat rep l [] h]
  rfl

/-- Splitting always yields at least one segment. -/
theorem splitFuel_ne_nil (pat : List Char) :
    ∀ fuel acc l, splitFuel pat fuel acc l ≠ [] := by
  intro fuel
  induction fuel with
  | zero => intro acc l; simp [splitFuel]
  | succ fuel ih =>
      intro acc l
      cases l with
      | nil => simp [splitFuel]
      | cons c cs =>
          by_cases hp : hasPfx pat (c :: cs) = true
          · simp [splitFuel, hp]
          · simp only [splitFuel, hp, Bool.false_eq_true, if_false]
            exact ih (c :: acc) cs

/-- Unfolding of the join on a cons with a non-empty tail. -/
theorem joinSep_cons_ne (sep s : List Char) (ss : List (List Char)) (h : ss ≠ []) :
    joinSep sep (s :: ss) = s ++ sep ++ joinSep sep ss := by
  cases ss with
  | nil => exact absurd rfl h
  | cons a as => rfl

/-- Joining a non-empty-separator split with the separator itself
reassembles the input. -/
theorem splitFuel_join (pat : List Char) (hpat : pat ≠ []) :
    ∀ fuel acc l, l.length < fuel →
      joinSep pat (splitFuel pat fuel acc l) = acc.reverse ++ l := by
  intro fuel
  induction fuel with
  | zero => intro acc l h; omega
  | succ fuel ih =>
      intro acc l h
      cases l with
      | nil => simp [splitFuel, joinSep]
      | cons c cs =>
          by_cases hp : hasPfx pat (c :: cs) = true
          · simp only [splitFuel, hp, if_true]
            rw [joinSep_cons_ne pat _ _ (splitFuel_ne_nil pat _ _ _)]
            have hdrop : ((c :: cs).drop pat.length).length < fuel := by
              have h1 : 1 ≤ pat.length := by
                cases pat with
                | nil => exact absurd rfl hpat
                | cons p ps => simp
              simp only [List.length_drop, List.length_cons]
              simp only [List.length_cons] at h
              omega
            rw [ih [] ((c :: cs).drop pat.length) hdrop]
            simp only [List.reverse_nil, List.nil_append]
            rw [List.append_assoc, hasPfx_append_drop pat (c :: cs) hp]
          · simp only [splitFuel, hp, Bool.false_eq_true, if_false]
            have hcs : cs.length < fuel := by
              simp only [List.length_cons] at h
              omega
            rw [ih (c :: acc) cs hcs]
            simp

/-- Splitting on an absent non-empty pattern yields one segment. -/
theorem splitFuel_not_contains (pat : List Char) :
    ∀ fuel acc l, containsL pat l = false → l.length < fuel →
      splitFuel pat fuel acc l = [acc.reverse ++ l] := by
  intro fuel
  induction fuel with
  | zero => intro acc l _ h; omega
  | succ fuel ih =>
      intro acc l hc h
      cases l with
      | nil => simp [splitFuel]
      | cons c cs =>
          simp only [containsL, Bool.or_eq_false_iff] at hc
          simp only [splitFuel, hc.1, Bool.false_eq_true, if_false]
          have hcs : cs.length < fuel := by
            simp only [List.length_cons] at h
            omega
          rw [ih (c :: acc) cs hc.2 hcs]
          simp

/-- Joining single-character segments with the empty separator
reassembles the input. -/
theorem joinSep_nil_map : ∀ l : List Char, joinSep [] (l.map (fun c => [c])) = l := by
  intro l
  induction l with
  | nil => rfl
  | cons c cs ih =>
      cases cs with
      | nil => rfl
      | cons d ds =>
          rw [List.map_cons, joinSep_cons_ne [] [c] _ (by simp), ih]
          simp

/-- Replacing a pattern by itself is the identity in replace-all mode
(the split/join path performs no dollar substitution). -/
theorem applyEditL_self_all (l pat : List Char) : applyEditL l pat pat true = l := by
  simp only [applyEditL, if_true, splitAllL]
  by_cases hp : pat.isEmpty = true
  · have : pat = [] := by
      cases pat with
      | nil => rfl
      | cons p ps => simp [List.isEmpty] at hp
    subst this
    simp only [hp, if_true]
    exact joinSep_nil_map l
  · have hpat : pat ≠ [] := by
      intro hh
      subst hh
      simp [List.isEmpty] at hp
    simp only [hp, Bool.false_eq_true, if_false]
    have := splitFuel_join pat hpat (l.length + 1) [] l (by omega)
    rw [this]
    simp

/-- Replacing a dollar-free pattern by itself is the identity for both
modes. -/
theorem applyEditL_self (l pat : List Char) (hnd : '$' ∉ pat) (all : Bool) :
    applyEditL l pat pat all = l := by
  cases all with
  | false => simp [applyEditL, replaceFirstL_self pat hnd]
  | true => exact applyEditL_self_all l pat

/-- Replacing an absent pattern is the identity for both modes. -/
theorem applyEditL_not_contains (l pat rep : List Char)
    (h : containsL pat l = false) (all : Bool) : applyEditL l pat rep all = l := by
  have hpat : pat ≠ [] := by
    intro hh
    subst hh
    rw [containsL_nil_pat l] at h
    exact Bool.true_eq_false.mp h
  cases all with
  | false => simp [applyEditL, replaceFirstL_not_contains pat rep l h]
  | true =>
      have hp : pat.isEmpty = false := by
        cases pat with
        | nil => exact absurd rfl hpat
        | cons p ps => rfl
      simp only [applyEditL, if_true, splitAllL, hp, Bool.false_eq_true, if_false]
      rw [splitFuel_not_contains pat (l.length + 1) [] l h (by omega)]
      simp [joinSep]

/-- Counterexample for C10: with search and replace both the two
dollars and replace_all off, JavaScript String.replace expands the
replacement to one dollar, so the content changes, the identity check
passes, and the file IS written — edit_file returns success, not the
not-found failure the claim asserts for search equal to replace. -/
theorem edit_self_replace_dollar_writes :
    applyEdit "a$$b" "$$" "$$" false = "a$b" ∧
    (editFileCore (fun _ _ => "") "f.txt" "a$$b" "$$" "$$" false).1.success = true ∧
    (editFileCore (fun _ _ => "") "f.txt" "a$$b" "$$" "$$" false).2 = some "a$b" ∧
    editFileCore (fun _ _ => "") "f.txt" "a$$b" "$$" "$$" false ≠
      (editNotFoundError "$$", none) := by
  refine ⟨by decide, by decide, by decide, ?_⟩
  intro h
  have h2 := congrArg Prod.snd h
  rw [(by decide : (editFileCore (fun _ _ => "") "f.txt" "a$$b" "$$" "$$" false).2 = some "a$b")] at h2
  exact Option.noConfusion h2

/-- C10 (amended): when the replacement leaves the content identical,
edit_file fails with the search-text-not-found error and nothing is
written (the write is performed only after this identity check); the
content is identical whenever the search text does not occur, whenever
search equals replace under replace_all (the split/join path performs
no substitution), and whenever search equals replace without
replace_all provided the replacement carries no dollar character — but
not for every search-equals-replace pair, since dollar substitution can
change the content. -/
theorem edit_identity_check_blocks_write :
    (∀ (diffText : String → String → String) (filePath orig search repl : String) (all : Bool),
        applyEdit orig search repl all = orig →
        editFileCore diffText filePath orig search repl all = (editNotFoundError search, none)) ∧
    (∀ (orig search repl : String) (all : Bool),
        containsL search.data orig.data = false → applyEdit orig search repl all = orig) ∧
    (∀ (orig search : String) (all : Bool),
        '$' ∉ search.data → applyEdit orig search search all = orig) ∧
    (∀ (orig search : String), applyEdit orig search search true = orig) := by
  refine ⟨?_, ?_, ?_, ?_⟩
  · intro diffText filePath orig search repl all h
    simp [editFileCore, h]
  · intro orig search repl all h
    obtain ⟨d⟩ := orig
    show String.mk (applyEditL d search.data repl.data all) = String.mk d
    rw [applyEditL_not_contains d search.data repl.data h all]
  · intro orig search all hnd
    obtain ⟨d⟩ := orig
    show String.mk (applyEditL d search.data search.data all) = String.mk d
    rw [applyEditL_self d search.data hnd all]
  · intro orig search
    obtain ⟨d⟩ := orig
    show String.mk (applyEditL d search.data search.data true) = String.mk d
    rw [applyEditL_self_all d search.data]

/-- Witness for C10: an absent search text leaves the content unchanged
and the edit fails with the not-found error, writing nothing; a
dollar-free search replaced by itself also leaves the content
unchanged. -/
theorem edit_identity_check_blocks_write_witness :
    applyEdit "hello world" "xyz" "q" false = "hello world" ∧
    editFileCore (fun _ _ => "") "f.txt" "hello world" "xyz" "q" false =
      (editNotFoundError "xyz", none) ∧
    applyEdit "hello world" "world" "world" false = "hello world" :=
  ⟨by decide, edit_identity_check_blocks_write.1 (fun _ _ => "") "f.txt"
    "hello world" "xyz" "q" false (by decide),
   edit_identity_check_blocks_write.2.2.1 "hello world" "world" false (by decide)⟩

end PrabCli
